import Mathlib

/-!
Verification of the gitpanic-cli Repository State & Safety Engine.

This file gives a shallow embedding of the core of the tool:
the git accessor (`src/core/gitWrapper.ts`), the state detector
(`src/core/stateDetector.ts`), the safety evaluator (`src/core/safetyChecks.ts`)
and the action journal (`src/core/actionHistory.ts`), together with the
`undoCommit` command flow (`src/commands/history.ts`).

The external git engine is modelled by a `Repo` value: `log` is the commit
list reachable from HEAD (newest first, as reported by `git log`), `store`
is the object store, mapping a commit hash to the log that would result from
resetting to that hash, `status` is the porcelain status projection and
`remoteContaining h` is the parsed output of `git branch -r --contains h`
(the remote-tracking refs from which `h` is reachable).  Read queries are
pure functions of this value; mutations (`reset`) return an updated value,
with `none` standing for a git failure (unknown revision).  Working-tree and
index effects of soft/mixed/hard resets are not observed by any claim below,
so the three modes share one head-moving model.
-/

/-- Mirror of `CommitInfo` in `gitWrapper.ts`. -/
structure CommitInfo where
  hash : String
  message : String
  author : String
  date : String
  deriving Repr, DecidableEq

/-- Mirror of `GitStatus` in `gitWrapper.ts` (projection of `git status`). -/
structure GitStatus where
  current : Option String
  tracking : Option String
  staged : List String
  modified : List String
  untracked : List String
  ahead : Nat
  behind : Nat
  deriving Repr, DecidableEq

/-- Model of the external repository as seen through the accessor. -/
structure Repo where
  log : List CommitInfo
  store : List (String × List CommitInfo)
  status : GitStatus
  currentBranch : Option String
  remoteContaining : String → List String

/-- Hash of the current HEAD (`GitWrapper.getHeadHash`; `none` models the
`git rev-parse HEAD` failure on a repository with no commits). -/
def headHash (repo : Repo) : Option String :=
  repo.log.head?.map CommitInfo.hash

/-- `GitWrapper.getRecentCommits(count)`: `git log --max-count`. -/
def getRecentCommits (repo : Repo) (count : Nat) : List CommitInfo :=
  repo.log.take count

/-- `GitWrapper.hasUncommittedChanges`: staged or modified lists non-empty.
Untracked files are not consulted. -/
def hasUncommittedChanges (repo : Repo) : Bool :=
  !repo.status.staged.isEmpty || !repo.status.modified.isEmpty

/-- `GitWrapper.hasStagedChanges`. -/
def hasStagedChanges (repo : Repo) : Bool :=
  !repo.status.staged.isEmpty

/-- `GitWrapper.isPushed(hash)`: false when the current branch has no
tracking ref, otherwise true iff `git branch -r --contains hash` printed
at least one remote-tracking ref. -/
def isPushed (repo : Repo) (h : String) : Bool :=
  repo.status.tracking.isSome && !(repo.remoteContaining h).isEmpty

/-- Modelled from the spec: "Push-status of a commit is true iff it is
reachable from at least one remote-tracking reference."  The refs from
which `h` is reachable are exactly `repo.remoteContaining h`. -/
def specPushStatus (repo : Repo) (h : String) : Bool :=
  !(repo.remoteContaining h).isEmpty

/-- `git reset --hard <hash>` (`GitWrapper.hardReset` with an explicit
hash): look the hash up in the object store and move HEAD there; `none`
models the git error on an unknown revision. -/
def hardResetTo (h : String) (repo : Repo) : Option Repo :=
  (repo.store.lookup h).map (fun l => { repo with log := l })

/-- Reset to `HEAD~k` (used by soft, mixed and hard reset in `undoCommit`;
only the head movement is observable to the claims).  `HEAD~k` exists iff
the log has more than `k` entries; it resolves to the k-th ancestor. -/
def resetHead (repo : Repo) (k : Nat) : Option Repo :=
  match repo.log.drop k with
  | [] => none
  | c :: _ => hardResetTo c.hash repo

/-- Ongoing-operation kinds detected from repository control markers. -/
inductive OngoingOp where
  | merge
  | rebase
  | cherryPick
  | bisect
  deriving Repr, DecidableEq

/-- The `operationNames` record in `detectIssues`. -/
def operationName : OngoingOp → String
  | .merge => "Merge"
  | .rebase => "Rebase"
  | .cherryPick => "Cherry-pick"
  | .bisect => "Bisect"

/-- Issue severities of `RepoIssue` in `stateDetector.ts`. -/
inductive IssueSeverity where
  | warning
  | error
  | info
  deriving Repr, DecidableEq

/-- Mirror of `RepoIssue` in `stateDetector.ts`. -/
structure RepoIssue where
  type : IssueSeverity
  code : String
  message : String
  suggestion : Option String := none
  deriving Repr, DecidableEq

/-- Entries of `GitWrapper.getStashList`. -/
structure StashEntry where
  index : Nat
  message : String
  hash : String
  deriving Repr, DecidableEq

/-- Mirror of `RepoState` in `stateDetector.ts`. -/
structure RepoState where
  isGitRepo : Bool
  currentBranch : Option String
  hasUncommittedChanges : Bool
  hasStagedChanges : Bool
  hasRemote : Bool
  lastCommit : Option CommitInfo
  status : Option GitStatus
  issues : List RepoIssue
  isDetachedHead : Bool
  ongoingOperation : Option OngoingOp
  hasConflicts : Bool
  conflictedFiles : List String
  hasStashes : Bool
  stashCount : Nat
  deriving Repr, DecidableEq

/-- Mirror of `DetectionContext` in `stateDetector.ts`. -/
structure DetectionContext where
  currentBranch : Option String
  hasUncommittedChanges : Bool
  hasStagedChanges : Bool
  hasRemote : Bool
  lastCommit : Option CommitInfo
  status : Option GitStatus
  isDetachedHead : Bool
  ongoingOperation : Option OngoingOp
  conflictedFiles : List String
  deriving Repr, DecidableEq

/-- Mirror of `detectIssues` in `stateDetector.ts`: the fixed rule table,
in source order.  The two `context.status && ...` rules are grouped in one
match on `status`. -/
def detectIssues (ctx : DetectionContext) : List RepoIssue :=
  (if ctx.isDetachedHead then
    [{ type := .warning, code := "DETACHED_HEAD",
       message := "You are in detached HEAD state",
       suggestion := some "Create a branch to save your work, or checkout an existing branch" }]
   else []) ++
  (match ctx.ongoingOperation with
   | some op =>
     [{ type := .warning, code := "ONGOING_OPERATION",
        message := operationName op ++ " in progress",
        suggestion := some (if ctx.conflictedFiles.length > 0 then
            "Resolve " ++ toString ctx.conflictedFiles.length ++ " conflict(s) or abort"
          else "Continue or abort the operation") }]
   | none => []) ++
  (if ctx.conflictedFiles.length > 0 ∧ ctx.ongoingOperation = none then
    [{ type := .error, code := "HAS_CONFLICTS",
       message := toString ctx.conflictedFiles.length ++ " file(s) have merge conflicts",
       suggestion := some "Resolve conflicts before continuing" }]
   else []) ++
  (if ctx.lastCommit = none then
    [{ type := .info, code := "NO_COMMITS",
       message := "Repository has no commits yet",
       suggestion := some "Create your first commit" }]
   else []) ++
  (match ctx.status with
   | some st =>
     (if st.ahead > 0 then
       [{ type := .info, code := "UNPUSHED_COMMITS",
          message := "You have " ++ toString st.ahead ++ " unpushed commit(s)",
          suggestion := some "These commits are safe to modify with Git Panic" }]
      else []) ++
     (if st.behind > 0 then
       [{ type := .warning, code := "BEHIND_REMOTE",
          message := "Your branch is " ++ toString st.behind ++ " commit(s) behind remote",
          suggestion := some "Consider pulling changes before making modifications" }]
      else [])
   | none => []) ++
  (if ctx.hasUncommittedChanges && !ctx.hasStagedChanges then
    [{ type := .info, code := "UNSTAGED_CHANGES",
       message := "You have unstaged changes" }]
   else []) ++
  (if ctx.hasStagedChanges then
    [{ type := .info, code := "STAGED_CHANGES",
       message := "You have staged changes ready to commit" }]
   else [])

/-- Results of the accessor queries issued by `detectRepoState`.  Of the ten
batched reads, only the three that run `git status` underneath (`getStatus`,
`hasUncommittedChanges`, `hasStagedChanges`) can reject the batch — every
other wrapper query catches internally and returns a default.  They reject
together, so one `Except` field models the batch failure. -/
structure GitEnv where
  isRepo : Bool
  statusQ : Except String GitStatus
  branchQ : Option String
  remoteQ : Bool
  lastCommitQ : Option CommitInfo
  detachedQ : Bool
  ongoingQ : Option OngoingOp
  conflictsQ : List String
  stashQ : List StashEntry

/-- The `defaultState` literal at the top of `detectRepoState`. -/
def defaultDetectState : RepoState :=
  { isGitRepo := false, currentBranch := none, hasUncommittedChanges := false,
    hasStagedChanges := false, hasRemote := false, lastCommit := none, status := none,
    issues := [], isDetachedHead := false, ongoingOperation := none, hasConflicts := false,
    conflictedFiles := [], hasStashes := false, stashCount := 0 }

/-- The single issue returned when the path is not a repository. -/
def notGitRepoIssue : RepoIssue :=
  { type := .error, code := "NOT_GIT_REPO",
    message := "Current directory is not a Git repository",
    suggestion := some "Initialize a Git repository with \"git init\"" }

/-- The single issue returned when the query batch fails unexpectedly. -/
def detectionFailedIssue : RepoIssue :=
  { type := .error, code := "DETECTION_FAILED",
    message := "Failed to detect repository state",
    suggestion := some "Check if Git is installed and accessible" }

/-- Mirror of `detectRepoState` in `stateDetector.ts`: early return on a
non-repository, the concurrent query batch, the issue reduction, and the
catch-all that converts a batch failure into the minimal
`DETECTION_FAILED` state. -/
def detectRepoState (env : GitEnv) : RepoState :=
  if !env.isRepo then
    { defaultDetectState with issues := [notGitRepoIssue] }
  else
    match env.statusQ with
    | .error _ => { defaultDetectState with issues := [detectionFailedIssue] }
    | .ok st =>
      let hasUncommitted := !st.staged.isEmpty || !st.modified.isEmpty
      let hasStaged := !st.staged.isEmpty
      let ctx : DetectionContext :=
        { currentBranch := env.branchQ, hasUncommittedChanges := hasUncommitted,
          hasStagedChanges := hasStaged, hasRemote := env.remoteQ,
          lastCommit := env.lastCommitQ, status := some st,
          isDetachedHead := env.detachedQ, ongoingOperation := env.ongoingQ,
          conflictedFiles := env.conflictsQ }
      { isGitRepo := true, currentBranch := env.branchQ,
        hasUncommittedChanges := hasUncommitted, hasStagedChanges := hasStaged,
        hasRemote := env.remoteQ, lastCommit := env.lastCommitQ, status := some st,
        issues := detectIssues ctx, isDetachedHead := env.detachedQ,
        ongoingOperation := env.ongoingQ, hasConflicts := !env.conflictsQ.isEmpty,
        conflictedFiles := env.conflictsQ, hasStashes := !env.stashQ.isEmpty,
        stashCount := env.stashQ.length }

/-- Mirror of `SafetyCheckResult` in `safetyChecks.ts`. -/
structure SafetyCheckResult where
  safe : Bool
  warnings : List String
  blockers : List String
  deriving Repr, DecidableEq

/-- Reset modes offered by `undoCommit`. -/
inductive ResetMode where
  | soft
  | mixed
  | hard
  deriving Repr, DecidableEq

/-- Blocker text produced by `checkBeforeReset`. -/
def notEnoughBlocker (avail req : Nat) : String :=
  "Only " ++ toString avail ++ " commits available, cannot undo " ++ toString req

/-- Warning text for a hard reset over uncommitted changes. -/
def discardWarning : String :=
  "Hard reset will discard all uncommitted changes"

/-- Warning text for undoing an already-pushed commit (message truncated to
50 characters as in the source). -/
def pushedWarning (c : CommitInfo) : String :=
  "Commit \"" ++ c.message.take 50 ++ "\" has been pushed. Undoing will require force push."

/-- Mirror of `checkBeforeReset(mode, commitCount)` in `safetyChecks.ts`. -/
def checkBeforeReset (repo : Repo) (mode : ResetMode) (commitCount : Nat) :
    SafetyCheckResult :=
  let commits := getRecentCommits repo commitCount
  let blockers :=
    if commits.length < commitCount then [notEnoughBlocker commits.length commitCount]
    else []
  let hardWarnings :=
    if mode == ResetMode.hard && hasUncommittedChanges repo then [discardWarning]
    else []
  let pushWarnings := (commits.filter (fun c => isPushed repo c.hash)).map pushedWarning
  { safe := blockers.isEmpty
    warnings := hardWarnings ++ pushWarnings
    blockers := blockers }

/-- A concrete repository whose only commit is reachable from a remote ref
while the current branch tracks nothing: `origin/main` contains `c0` but
`status.tracking` is `null`. -/
def untrackedRepo : Repo :=
  { log := [⟨"c0", "init", "a", "d"⟩]
    store := [("c0", [⟨"c0", "init", "a", "d"⟩])]
    status := { current := some "main", tracking := none, staged := [], modified := [],
                untracked := [], ahead := 0, behind := 0 }
    currentBranch := some "main"
    remoteContaining := fun _ => ["origin/main"] }

/-- A query environment whose path is not a git repository. -/
def envNotRepo : GitEnv :=
  ⟨false, Except.ok ⟨none, none, [], [], [], 0, 0⟩, none, false, none, false, none, [], []⟩

/-- A query environment for a repository whose status batch fails. -/
def envBatchFails : GitEnv :=
  ⟨true, Except.error "spawn git ENOENT", some "main", false, none, false, none, [], []⟩

/-- Before/after head snapshot stored in a journal entry. -/
structure StateSnap where
  headHash : String
  branch : Option String
  deriving Repr, DecidableEq

/-- Mirror of `RecordedAction` in `actionHistory.ts` (the `type` union of
string literals is kept as a string). -/
structure RecordedAction where
  id : String
  type : String
  timestamp : String
  description : String
  repoPath : String
  beforeState : StateSnap
  afterState : Option StateSnap := none
  undoCommand : Option String := none
  canUndo : Bool
  deriving Repr, DecidableEq

/-- JS `Array.prototype.slice(-n)` as used by `saveHistory`: for n ≥ 1 it
keeps the last n elements; `slice(-0)` is `slice(0)` and keeps everything. -/
def jsSliceLast (n : Nat) (l : List α) : List α :=
  if n = 0 then l else l.drop (l.length - n)

/-- `ActionHistoryManager.saveHistory`: the persisted journal contents
after trimming to the configured `maxActionHistory`. -/
def saveHistory (maxActionHistory : Nat) (actions : List RecordedAction) :
    List RecordedAction :=
  jsSliceLast maxActionHistory actions

/-- JS truthiness of an optional string field (`undefined` and `""` are
falsy). -/
def jsTruthyStr : Option String → Bool
  | none => false
  | some s => !(s == "")

/-- Combined repository-plus-journal state threaded through the journal
operations. -/
structure Sys where
  repo : Repo
  journal : List RecordedAction

/-- `ActionHistoryManager.recordAction(type, description, canUndo)`:
capture the current head hash and branch as `beforeState`, append a new
PENDING entry (no afterState, no undo directive) and persist with
trimming.  `none` models the `git rev-parse HEAD` exception on an empty
repository.  The fresh id and the timestamp are environment inputs. -/
def recordAction (maxH : Nat) (id ts ty desc repoPath : String) (canUndo : Bool)
    (sys : Sys) : Option (RecordedAction × Sys) :=
  match sys.repo.log with
  | [] => none
  | c :: _ =>
    let a : RecordedAction :=
      { id := id, type := ty, timestamp := ts, description := desc, repoPath := repoPath,
        beforeState := { headHash := c.hash, branch := sys.repo.currentBranch },
        canUndo := canUndo }
    some (a, { sys with journal := saveHistory maxH (sys.journal ++ [a]) })

/-- `findIndex(x => x.id === action.id)` followed by `actions[index] =
action`: replace the first entry carrying the id of `a2` by `a2` (the
list is unchanged when the id is absent). -/
def replaceById (a2 : RecordedAction) : List RecordedAction → List RecordedAction
  | [] => []
  | b :: rest => if b.id == a2.id then a2 :: rest else b :: replaceById a2 rest

/-- `ActionHistoryManager.completeAction(action)`: capture the after
state, derive the undo directive when the entry is undoable and the head
moved, then write the updated entry back by id and persist (the source
skips the save when `findIndex` returns -1).  `none` models a
`git rev-parse HEAD` failure. -/
def completeAction (maxH : Nat) (a : RecordedAction) (sys : Sys) : Option Sys :=
  match sys.repo.log with
  | [] => none
  | c :: _ =>
    let a2 : RecordedAction :=
      { a with
        afterState := some { headHash := c.hash, branch := sys.repo.currentBranch },
        undoCommand :=
          if a.canUndo && !(a.beforeState.headHash == c.hash) then
            some ("git reset --hard " ++ a.beforeState.headHash)
          else a.undoCommand }
    some { sys with journal :=
        if sys.journal.any (fun b => b.id == a2.id) then
          saveHistory maxH (replaceById a2 sys.journal)
        else sys.journal }

/-- The filter of `getLastUndoableAction`: undoable flag set, undo
directive present (JS truthiness), and recorded for the caller's path. -/
def undoablePred (repoPath : String) (a : RecordedAction) : Bool :=
  a.canUndo && jsTruthyStr a.undoCommand && (a.repoPath == repoPath)

/-- `ActionHistoryManager.getLastUndoableAction()`: scan the journal
newest-to-oldest for the first matching entry. -/
def getLastUndoableAction (repoPath : String) (j : List RecordedAction) :
    Option RecordedAction :=
  j.reverse.find? (undoablePred repoPath)

/-- `actions[index].canUndo = false` after `findIndex(x => x.id === id)`:
clear the undoable flag of the first entry with the given id. -/
def consumeById (id : String) : List RecordedAction → List RecordedAction
  | [] => []
  | b :: rest =>
    if b.id == id then { b with canUndo := false } :: rest else b :: consumeById id rest

/-- `ActionHistoryManager.undoLastAction()`: find the last undoable entry
for this repository, guard against an empty before-state hash, run the
hard reset back to the recorded before-state, flip the consumed entry's
undoable flag and persist.  Every failure leaves the state unchanged and
reports `success := false`. -/
def undoLastAction (maxH : Nat) (repoPath : String) (sys : Sys) :
    (Bool × String) × Sys :=
  match getLastUndoableAction repoPath sys.journal with
  | none => ((false, "No undoable actions in history for this repository"), sys)
  | some la =>
    if la.beforeState.headHash == "" then
      ((false, "Cannot undo: missing before state"), sys)
    else
      match hardResetTo la.beforeState.headHash sys.repo with
      | none => ((false, "Failed to undo"), sys)
      | some repo2 =>
        let j2 := if sys.journal.any (fun b => b.id == la.id) then
            saveHistory maxH (consumeById la.id sys.journal)
          else sys.journal
        ((true, "Undid \"" ++ la.description ++ "\""), { repo := repo2, journal := j2 })

/-- Reset-mode names as interpolated into the action description. -/
def modeName : ResetMode → String
  | .soft => "soft"
  | .mixed => "mixed"
  | .hard => "hard"

/-- The description template literal of the `undo_commit` record. -/
def undoDescription (count : Nat) (mode : ResetMode) : String :=
  "Undo " ++ toString count ++ " commit(s) with " ++ modeName mode ++ " reset"

/-- The `undoCommit` command flow (`src/commands/history.ts`) with the
interactive confirmations answered positively: repository and
recent-commit guards, the `checkBeforeReset` gate, the journal record,
the `HEAD~count` reset in the selected mode, and the completion of the
journal entry exactly when the reset succeeded — the catch around the
reset leaves the entry PENDING. -/
def undoCommit (maxH : Nat) (repoPath id ts : String) (mode : ResetMode)
    (count : Nat) (sys : Sys) : Sys :=
  if (getRecentCommits sys.repo 10).isEmpty then sys
  else if !(checkBeforeReset sys.repo mode count).safe then sys
  else
    match recordAction maxH id ts "undo_commit" (undoDescription count mode)
        repoPath true sys with
    | none => sys
    | some (a, sys1) =>
      match resetHead sys1.repo count with
      | none => sys1
      | some repo2 =>
        match completeAction maxH a { repo := repo2, journal := sys1.journal } with
        | none => { repo := repo2, journal := sys1.journal }
        | some sys3 => sys3

/-- The sequence claimed by the spec: run the undo-commit command, then
immediately run the journal undo, and observe the final state. -/
def undoThenJournalUndo (maxH : Nat) (repoPath id ts : String) (mode : ResetMode)
    (count : Nat) (sys : Sys) : Sys :=
  (undoLastAction maxH repoPath (undoCommit maxH repoPath id ts mode count sys)).2

/-- A concrete journal entry used as sample data. -/
def exAction : RecordedAction :=
  { id := "1700000000000-a1b2c3d", type := "undo_commit",
    timestamp := "2024-01-01T00:00:00.000Z",
    description := "Undo 1 commit(s) with soft reset", repoPath := "/repo",
    beforeState := { headHash := "c0", branch := some "main" },
    canUndo := true }

/-- A concrete one-commit repository. -/
def oneCommitRepo : Repo :=
  { log := [⟨"c0", "init", "alice", "2024-01-01"⟩]
    store := [("c0", [⟨"c0", "init", "alice", "2024-01-01"⟩])]
    status := { current := some "main", tracking := none, staged := [], modified := [],
                untracked := [], ahead := 0, behind := 0 }
    currentBranch := some "main"
    remoteContaining := fun _ => [] }

/-- A concrete completed, undoable journal entry for `/repo`. -/
def exUndoable : RecordedAction :=
  { id := "1700000000001-zzzzzzz", type := "undo_commit", timestamp := "t1",
    description := "Undo 1 commit(s) with soft reset", repoPath := "/repo",
    beforeState := { headHash := "c0", branch := some "main" },
    afterState := some { headHash := "c1", branch := some "main" },
    undoCommand := some "git reset --hard c0", canUndo := true }

/-- Mirror of `ReflogEntry` in `gitWrapper.ts` (`getReflog` output, newest
first). -/
structure ReflogEntry where
  hash : String
  action : String
  message : String
  deriving Repr, DecidableEq

/-- Result entries of `getDeletedBranches`. -/
structure DeletedBranch where
  name : String
  hash : String
  deriving Repr, DecidableEq

/-- Result entries of `getDroppedStashes`. -/
structure DroppedStash where
  hash : String
  message : String
  deriving Repr, DecidableEq

/-- JS regex `\S`: any non-whitespace character (reflog messages use plain
spaces). -/
def nonWhitespace (ch : Char) : Bool :=
  !(ch = ' ' ∨ ch = '\t' ∨ ch = '\n' ∨ ch = '\r')

/-- The literal part of the branch-deletion regex. -/
def checkoutMovingPat : List Char := "checkout: moving from ".toList

/-- One anchored attempt of `/checkout: moving from (\S+) to/`: the
literal, then a non-empty greedy `\S+` capture, then the literal ` to`
(backtracking inside the non-space run can never reach the leading space
of ` to`, so only the maximal run can match). -/
def checkoutFromAt (s : List Char) : Option String :=
  if checkoutMovingPat.isPrefixOf s then
    let rest := s.drop checkoutMovingPat.length
    let name := rest.takeWhile nonWhitespace
    if !name.isEmpty && " to".toList.isPrefixOf (rest.drop name.length) then
      some (String.mk name)
    else none
  else none

/-- Unanchored search of `message.match(/checkout: moving from (\S+) to/)`:
try every start position left to right. -/
def checkoutFromSearch : List Char → Option String
  | [] => none
  | c :: cs =>
    match checkoutFromAt (c :: cs) with
    | some r => some r
    | none => checkoutFromSearch cs

/-- JS `String.prototype.includes`: substring containment. -/
def containsSub (pat : List Char) : List Char → Bool
  | [] => pat.isEmpty
  | c :: cs => pat.isPrefixOf (c :: cs) || containsSub pat cs

/-- JS `message.match(/: (.+)$/)`: the first `: ` occurrence followed by a
non-empty newline-free remainder reaching the end of the string; the
capture is that remainder. -/
def colonCapture : List Char → Option String
  | [] => none
  | c :: cs =>
    if [':', ' '].isPrefixOf (c :: cs) then
      let rest := (c :: cs).drop 2
      if !rest.isEmpty && rest.all (fun ch => !(ch = '\n')) then some (String.mk rest)
      else colonCapture cs
    else colonCapture cs

/-- Scan loop of `GitWrapper.getDeletedBranches`: newest first, matching
`checkout: moving from X to`, remembering every name seen (before the
existence check), and emitting a name only on its first occurrence and
only when no branch of that name still exists. -/
def getDeletedBranchesAux (branchesAll : List String) :
    List ReflogEntry → List String → List DeletedBranch
  | [], _ => []
  | e :: rest, seen =>
    match checkoutFromSearch e.message.toList with
    | some name =>
      if name ∈ seen then getDeletedBranchesAux branchesAll rest seen
      else if name ∈ branchesAll then getDeletedBranchesAux branchesAll rest (name :: seen)
      else ⟨name, e.hash⟩ :: getDeletedBranchesAux branchesAll rest (name :: seen)
    | none => getDeletedBranchesAux branchesAll rest seen

/-- `GitWrapper.getDeletedBranches`: scan the first 100 reflog entries
(`getReflog(100)`); `branchesAll` is the (stable) `branches.all` listing
queried inside the loop. -/
def getDeletedBranches (reflog : List ReflogEntry) (branchesAll : List String) :
    List DeletedBranch :=
  getDeletedBranchesAux branchesAll (reflog.take 100) []

/-- The filter of `getDroppedStashes`:
`message.includes('stash') && message.includes('drop')`. -/
def stashDropPred (e : ReflogEntry) : Bool :=
  containsSub "stash".toList e.message.toList &&
    containsSub "drop".toList e.message.toList

/-- The description extracted by `message.match(/: (.+)$/)` with the
`'Unknown stash'` fallback. -/
def stashDescription (msg : String) : String :=
  match colonCapture msg.toList with
  | some m => m
  | none => "Unknown stash"

/-- `GitWrapper.getDroppedStashes`: scan the first 100 reflog entries and
emit one result per matching entry — there is no `seen` set here. -/
def getDroppedStashes (reflog : List ReflogEntry) : List DroppedStash :=
  (reflog.take 100).filterMap (fun e =>
    if stashDropPred e then some ⟨e.hash, stashDescription e.message⟩ else none)

/-- Object-store coherence: the store resolves the hash of every commit of
the current log to the log from that commit on (the git invariant relating
`reset --hard <hash>` to the position of the hash in the history). -/
def StoreOk (repo : Repo) : Prop :=
  ∀ (k : Nat) (c : CommitInfo) (rest : List CommitInfo),
    repo.log.drop k = c :: rest → repo.store.lookup c.hash = some (c :: rest)

/-- An earlier completed, still-undoable journal entry for `/repo` whose
before-state is the orphaned commit `old`. -/
def priorAction : RecordedAction :=
  ⟨"1690000000000-prior11", "undo_commit", "t-1", "Undo 1 commit(s) with soft reset",
   "/repo", ⟨"old", some "main"⟩, some ⟨"c0", some "main"⟩,
   some "git reset --hard old", true⟩

/-- A one-commit repository whose object store still holds the orphaned
commit `old` (recoverable via the reflog, as after a previous undo). -/
def cexRepo : Repo :=
  { log := [⟨"c0", "second", "alice", "d2"⟩]
    store := [("c0", [⟨"c0", "second", "alice", "d2"⟩]),
              ("old", [⟨"old", "first", "alice", "d1"⟩])]
    status := ⟨some "main", none, [], [], [], 0, 0⟩
    currentBranch := some "main"
    remoteContaining := fun _ => [] }

/-- A well-formed two-commit repository. -/
def twoCommitRepo : Repo :=
  { log := [⟨"c1", "second", "alice", "d2"⟩, ⟨"c0", "first", "alice", "d1"⟩]
    store := [("c1", [⟨"c1", "second", "alice", "d2"⟩, ⟨"c0", "first", "alice", "d1"⟩]),
              ("c0", [⟨"c0", "first", "alice", "d1"⟩])]
    status := ⟨some "main", none, [], [], [], 0, 0⟩
    currentBranch := some "main"
    remoteContaining := fun _ => [] }

/-- Claim C2 (counterexample): `isPushed` is not equivalent to reachability
from a remote-tracking reference.  In `untrackedRepo` the commit `c0` is
reachable from `origin/main`, yet `isPushed` answers `false` because the
current branch has no upstream tracking ref. -/
theorem C2_counterexample :
    isPushed untrackedRepo "c0" = false ∧ specPushStatus untrackedRepo "c0" = true := by
  constructor <;> rfl

/-- Claim C2 (amended): `isPushed` returns true iff the current status has a
tracking ref AND the commit is reachable from at least one remote-tracking
reference (the spec omits the tracking-ref precondition). -/
theorem C2_isPushed_characterization (repo : Repo) (h : String) :
    isPushed repo h = true ↔
      repo.status.tracking ≠ none ∧ specPushStatus repo h = true := by
  simp [isPushed, specPushStatus, Option.isSome_iff_ne_none]

/-- Claim C5: `checkBeforeReset` blocks (and only blocks) when fewer than
the requested number of commits exist, `safe` is false exactly then, a hard
reset over uncommitted changes yields the discard warning, and the warning
list carries one separate entry per pushed candidate commit (plus the
optional discard warning), with no deduplication. -/
theorem C5_checkBeforeReset_spec (repo : Repo) (mode : ResetMode) (n : Nat) :
    ((checkBeforeReset repo mode n).blockers ≠ [] ↔ repo.log.length < n) ∧
    ((checkBeforeReset repo mode n).safe = true ↔ n ≤ repo.log.length) ∧
    ((checkBeforeReset repo mode n).safe = ((checkBeforeReset repo mode n).blockers.isEmpty)) ∧
    (mode = ResetMode.hard → hasUncommittedChanges repo = true →
      discardWarning ∈ (checkBeforeReset repo mode n).warnings) ∧
    ((checkBeforeReset repo mode n).warnings.length =
      (if mode = ResetMode.hard ∧ hasUncommittedChanges repo = true then 1 else 0) +
        ((getRecentCommits repo n).filter (fun c => isPushed repo c.hash)).length) := by
  have hb1 : repo.log.length < n →
      (checkBeforeReset repo mode n).blockers =
        [notEnoughBlocker (min n repo.log.length) n] := by
    intro h
    have hmin : min n repo.log.length < n := by omega
    simp [checkBeforeReset, getRecentCommits, List.length_take, hmin]
  have hb2 : ¬repo.log.length < n → (checkBeforeReset repo mode n).blockers = [] := by
    intro h
    have hmin : ¬min n repo.log.length < n := by omega
    simp [checkBeforeReset, getRecentCommits, List.length_take, hmin]
  have hs : (checkBeforeReset repo mode n).safe =
      (checkBeforeReset repo mode n).blockers.isEmpty := by
    simp [checkBeforeReset]
  refine ⟨?_, ?_, hs, ?_, ?_⟩
  · by_cases h : repo.log.length < n
    · simp [hb1 h, h]
    · simp [hb2 h, h]
  · rw [hs]
    by_cases h : repo.log.length < n
    · simp only [hb1 h, List.isEmpty_cons]
      constructor
      · intro hc; cases hc
      · intro hle; omega
    · simp only [hb2 h, List.isEmpty_nil]
      constructor
      · intro _; omega
      · intro _; trivial
  · intro hm hu
    subst hm
    simp [checkBeforeReset, hu]
  · by_cases hm : mode = ResetMode.hard ∧ hasUncommittedChanges repo = true
    · obtain ⟨h1, h2⟩ := hm
      subst h1
      simp [checkBeforeReset, h2]
      omega
    · have hc : (mode == ResetMode.hard && hasUncommittedChanges repo) = false := by
        by_cases h1 : mode = ResetMode.hard
        · subst h1
          have h2 : hasUncommittedChanges repo = false := by
            rcases Bool.eq_false_or_eq_true (hasUncommittedChanges repo) with h | h
            · exact absurd ⟨rfl, h⟩ hm
            · exact h
          simp [h2]
        · simp [h1]
      simp [checkBeforeReset, hc, hm]

/-- Claim C5 (witness): a concrete hard reset of 2 commits against a
one-commit repository with uncommitted changes is blocked and warned. -/
theorem C5_checkBeforeReset_spec_witness :
    discardWarning ∈ (checkBeforeReset
      { untrackedRepo with status := { untrackedRepo.status with modified := ["f"] } }
      ResetMode.hard 1).warnings :=
  (C5_checkBeforeReset_spec
    { untrackedRepo with status := { untrackedRepo.status with modified := ["f"] } }
    ResetMode.hard 1).2.2.2.1 rfl rfl

/-- Claim C10: `hasUncommittedChanges` is true iff the staged list or the
modified list is non-empty — untracked files never count — and a repository
whose only changes are untracked files gets no discard warning from a hard
`checkBeforeReset`: its warning list is exactly the pushed-commit warnings. -/
theorem C10_untracked_not_uncommitted (repo : Repo) (n : Nat) :
    (hasUncommittedChanges repo = true ↔
      (repo.status.staged ≠ [] ∨ repo.status.modified ≠ [])) ∧
    (repo.status.staged = [] → repo.status.modified = [] →
      (checkBeforeReset repo ResetMode.hard n).warnings =
        ((getRecentCommits repo n).filter (fun c => isPushed repo c.hash)).map pushedWarning) := by
  constructor
  · simp [hasUncommittedChanges, List.isEmpty_iff]
  · intro h1 h2
    simp [checkBeforeReset, hasUncommittedChanges, h1, h2]

/-- Claim C10 (witness): with only untracked files present,
`hasUncommittedChanges` is false and the hard-reset check yields no
discard warning. -/
theorem C10_untracked_not_uncommitted_witness :
    (checkBeforeReset
      { untrackedRepo with status := { untrackedRepo.status with untracked := ["new.txt"] } }
      ResetMode.hard 0).warnings = [] :=
  (C10_untracked_not_uncommitted
    { untrackedRepo with status := { untrackedRepo.status with untracked := ["new.txt"] } }
    0).2 rfl rfl

/-- Claim C3: `detectRepoState` is a total function of the query results.
On a non-repository it returns the fixed minimal state with the single
NOT_GIT_REPO error — a constant, so none of the other query results are
consulted; when the query batch fails it returns the fixed minimal
DETECTION_FAILED state; and whenever the returned state has
is-repository=false it is one of these two minimal states, never a
partially populated snapshot. -/
theorem C3_detectState_never_raises (env : GitEnv) :
    (env.isRepo = false →
      detectRepoState env = { defaultDetectState with issues := [notGitRepoIssue] }) ∧
    (∀ e, env.isRepo = true → env.statusQ = Except.error e →
      detectRepoState env = { defaultDetectState with issues := [detectionFailedIssue] }) ∧
    ((detectRepoState env).isGitRepo = false →
      detectRepoState env = { defaultDetectState with issues := [notGitRepoIssue] } ∨
      detectRepoState env = { defaultDetectState with issues := [detectionFailedIssue] }) := by
  refine ⟨?_, ?_, ?_⟩
  · intro h
    simp [detectRepoState, h]
  · intro e h he
    simp [detectRepoState, h, he]
  · intro h
    rcases hr : env.isRepo with _ | _
    · left
      simp [detectRepoState, hr]
    · rcases hs : env.statusQ with e | st
      · right
        simp [detectRepoState, hr, hs]
      · exfalso
        simp [detectRepoState, hr, hs] at h

/-- Claim C3 (witness): concrete not-a-repository and failing-batch
environments produce exactly the two minimal states. -/
theorem C3_detectState_never_raises_witness :
    detectRepoState envNotRepo = { defaultDetectState with issues := [notGitRepoIssue] } ∧
    detectRepoState envBatchFails =
      { defaultDetectState with issues := [detectionFailedIssue] } :=
  ⟨(C3_detectState_never_raises envNotRepo).1 rfl,
   (C3_detectState_never_raises envBatchFails).2.1 "spawn git ENOENT" rfl rfl⟩

/-- Counting helper: a conditionally emitted single issue contributes to a
count only when its condition holds and the predicate accepts it. -/
theorem countP_ite_single (p : RepoIssue → Bool) (P : Prop) [Decidable P] (i : RepoIssue) :
    List.countP p (if P then [i] else []) = if P then (if p i then 1 else 0) else 0 := by
  split <;> simp [List.countP_cons]

/-- Claim C4: a HAS_CONFLICTS issue is produced iff conflicted files are
present and no operation is ongoing; with an ongoing operation and
conflicted files the list has exactly one ONGOING_OPERATION warning whose
suggestion names the conflict count, and no HAS_CONFLICTS issue. -/
theorem C4_conflicts_only_without_operation (ctx : DetectionContext) :
    ((detectIssues ctx).countP (fun i => i.code == "HAS_CONFLICTS") =
      if ctx.conflictedFiles ≠ [] ∧ ctx.ongoingOperation = none then 1 else 0) ∧
    (∀ op, ctx.ongoingOperation = some op → ctx.conflictedFiles ≠ [] →
      (detectIssues ctx).countP (fun i => i.code == "ONGOING_OPERATION") = 1 ∧
      (detectIssues ctx).countP (fun i => i.code == "HAS_CONFLICTS") = 0 ∧
      ({ type := .warning, code := "ONGOING_OPERATION",
         message := operationName op ++ " in progress",
         suggestion := some ("Resolve " ++ toString ctx.conflictedFiles.length ++
           " conflict(s) or abort") } : RepoIssue) ∈ detectIssues ctx) := by
  constructor
  · rcases hop : ctx.ongoingOperation with _ | op <;>
      rcases hst : ctx.status with _ | st <;>
      by_cases hc : ctx.conflictedFiles = [] <;>
      simp [detectIssues, hop, hst, hc, List.length_pos.mpr,
        List.countP_append, countP_ite_single,
        List.countP_cons, Ne, List.length_pos]
  · intro op hop hc
    have hlen : 0 < ctx.conflictedFiles.length := List.length_pos.mpr hc
    refine ⟨?_, ?_, ?_⟩
    · rcases hst : ctx.status with _ | st <;>
        simp [detectIssues, hop, hst, List.countP_append, countP_ite_single,
          List.countP_cons]
    · rcases hst : ctx.status with _ | st <;>
        simp [detectIssues, hop, hst, List.countP_append, countP_ite_single,
          List.countP_cons]
    · simp [detectIssues, hop, hlen]

/-- Claim C4 (witness): an ongoing merge with two conflicted files yields
one ONGOING_OPERATION warning naming 2 conflicts and no HAS_CONFLICTS. -/
theorem C4_conflicts_only_without_operation_witness :
    (detectIssues ⟨some "main", false, false, false, none, none, false,
        some OngoingOp.merge, ["a.txt", "b.txt"]⟩).countP
      (fun i => i.code == "ONGOING_OPERATION") = 1 ∧
    (detectIssues ⟨some "main", false, false, false, none, none, false,
        some OngoingOp.merge, ["a.txt", "b.txt"]⟩).countP
      (fun i => i.code == "HAS_CONFLICTS") = 0 ∧
    ({ type := .warning, code := "ONGOING_OPERATION",
       message := "Merge in progress",
       suggestion := some "Resolve 2 conflict(s) or abort" } : RepoIssue) ∈
      detectIssues ⟨some "main", false, false, false, none, none, false,
        some OngoingOp.merge, ["a.txt", "b.txt"]⟩ :=
  (C4_conflicts_only_without_operation
      ⟨some "main", false, false, false, none, none, false,
        some OngoingOp.merge, ["a.txt", "b.txt"]⟩).2
    OngoingOp.merge rfl (by decide)

/-- Trimming only ever drops elements. -/
theorem jsSliceLast_subset (n : Nat) (l : List α) : ∀ x ∈ jsSliceLast n l, x ∈ l := by
  intro x hx
  unfold jsSliceLast at hx
  split at hx
  · exact hx
  · exact List.drop_subset _ l hx

/-- Trimming a list that ends in `a` yields a list that still ends in `a`,
with the remaining prefix drawn from the old prefix. -/
theorem jsSliceLast_concat (n : Nat) (l : List α) (a : α) :
    ∃ l2, jsSliceLast n (l ++ [a]) = l2 ++ [a] ∧ ∀ x ∈ l2, x ∈ l := by
  unfold jsSliceLast
  by_cases h : n = 0
  · exact ⟨l, by simp [h], fun x hx => hx⟩
  · refine ⟨l.drop ((l ++ [a]).length - n), ?_, ?_⟩
    · rw [if_neg h]
      have hle : (l ++ [a]).length - n ≤ l.length := by
        simp only [List.length_append, List.length_cons, List.length_nil]
        omega
      exact List.drop_append_of_le_length hle
    · intro x hx
      exact List.drop_subset _ _ hx

/-- Writing an updated entry back by id, when the id occurs only at the
final position, replaces exactly that last element. -/
theorem replaceById_concat (a2 a : RecordedAction) (l : List RecordedAction)
    (hl : ∀ x ∈ l, x.id ≠ a2.id) (ha : a.id = a2.id) :
    replaceById a2 (l ++ [a]) = l ++ [a2] := by
  induction l with
  | nil => simp [replaceById, ha]
  | cons b rest IH =>
    have hb : (b.id == a2.id) = false := by
      simp [hl b (List.mem_cons_self b rest)]
    simp only [List.cons_append, replaceById, hb, Bool.false_eq_true, if_false]
    exact congrArg (List.cons b) (IH (fun x hx => hl x (List.mem_cons_of_mem b hx)))

/-- The reset gate never blocks when enough commits exist. -/
theorem checkBeforeReset_safe_of_le (repo : Repo) (mode : ResetMode) (n : Nat)
    (h : n ≤ repo.log.length) : (checkBeforeReset repo mode n).safe = true := by
  have hmin : ¬min n repo.log.length < n := by omega
  simp [checkBeforeReset, getRecentCommits, List.length_take, hmin]

/-- A journal ending in a matching entry yields that entry as the last
undoable action. -/
theorem getLastUndoable_concat_hit (path : String) (l : List RecordedAction)
    (a : RecordedAction) (ha : undoablePred path a = true) :
    getLastUndoableAction path (l ++ [a]) = some a := by
  unfold getLastUndoableAction
  rw [List.reverse_append]
  simp only [List.reverse_cons, List.reverse_nil, List.nil_append, List.singleton_append]
  exact List.find?_cons_of_pos _ ha

/-- No matching entry, no last undoable action. -/
theorem getLastUndoable_none (path : String) (j : List RecordedAction)
    (h : ∀ x ∈ j, undoablePred path x = false) :
    getLastUndoableAction path j = none := by
  unfold getLastUndoableAction
  rw [List.find?_eq_none]
  intro x hx
  simp [h x (List.mem_reverse.mp hx)]

/-- The returned entry satisfies the filter and belongs to the journal. -/
theorem getLastUndoable_mem_pred (path : String) (j : List RecordedAction)
    (a : RecordedAction) (h : getLastUndoableAction path j = some a) :
    undoablePred path a = true ∧ a ∈ j := by
  unfold getLastUndoableAction at h
  exact ⟨List.find?_some h, List.mem_reverse.mp (List.mem_of_find?_eq_some h)⟩

/-- A member of the journal makes `findIndex` by its id succeed. -/
theorem any_id_of_mem (j : List RecordedAction) (la : RecordedAction) (h : la ∈ j) :
    (j.any (fun b => b.id == la.id)) = true := by
  rw [List.any_eq_true]
  exact ⟨la, h, by simp⟩

/-- When the journal ids are distinct, the only entry of the consumed
journal still carrying the consumed id is the flag-cleared copy. -/
theorem consumeById_mem_eq (la : RecordedAction) (j : List RecordedAction)
    (hmem : la ∈ j) (hnd : (j.map RecordedAction.id).Nodup) :
    ∀ x ∈ consumeById la.id j, x.id = la.id → x = { la with canUndo := false } := by
  induction j with
  | nil => cases hmem
  | cons b rest IH =>
    rw [List.map_cons, List.nodup_cons] at hnd
    obtain ⟨hbid, hndr⟩ := hnd
    intro x hx hxid
    by_cases hb : b.id = la.id
    · have hbla : b = la := by
        rcases List.mem_cons.mp hmem with h | h
        · exact h.symm
        · exfalso
          have hin : b.id ∈ rest.map RecordedAction.id := by
            rw [hb]
            exact List.mem_map.mpr ⟨la, h, rfl⟩
          exact hbid hin
      have hcons : consumeById la.id (b :: rest) =
          { b with canUndo := false } :: rest := by
        simp [consumeById, hb]
      rw [hcons] at hx
      rcases List.mem_cons.mp hx with h | h
      · rw [h, hbla]
      · exfalso
        have hin : b.id ∈ rest.map RecordedAction.id := by
          exact List.mem_map.mpr ⟨x, h, by rw [hxid]; exact hb.symm⟩
        exact hbid hin
    · have hbne : (b.id == la.id) = false := by simp [hb]
      have hcons : consumeById la.id (b :: rest) = b :: consumeById la.id rest := by
        simp [consumeById, hbne]
      rw [hcons] at hx
      have hlarest : la ∈ rest := by
        rcases List.mem_cons.mp hmem with h | h
        · exact absurd (congrArg RecordedAction.id h.symm) hb
        · exact h
      rcases List.mem_cons.mp hx with h | h
      · exact absurd (h ▸ hxid) hb
      · exact IH hlarest hndr x h hxid

/-- Claim C8 (counterexample): with `maxActionHistory = 0` (a value the
configuration loader accepts unvalidated), `saveHistory` persists the full
list — JS `slice(-0)` is `slice(0)` — so the persisted length exceeds the
configured maximum. -/
theorem C8_counterexample : ¬(saveHistory 0 [exAction]).length ≤ 0 := by decide

/-- Claim C8 (amended): for every save with `maxActionHistory ≥ 1` the
persisted journal holds at most `maxActionHistory` entries and is exactly
the original list with the oldest entries dropped first; at
`maxActionHistory = 0` the list is persisted untrimmed. -/
theorem C8_trim_bound (maxH : Nat) (l : List RecordedAction) (h : 1 ≤ maxH) :
    (saveHistory maxH l).length ≤ maxH ∧
    saveHistory maxH l = l.drop (l.length - maxH) := by
  have h0 : maxH ≠ 0 := by omega
  constructor
  · simp only [saveHistory, jsSliceLast, if_neg h0, List.length_drop]
    omega
  · simp only [saveHistory, jsSliceLast, if_neg h0]

/-- Claim C8 (witness): trimming a three-entry journal to two keeps the two
newest entries. -/
theorem C8_trim_bound_witness :
    (saveHistory 2 [exAction, exAction, exAction]).length ≤ 2 ∧
    saveHistory 2 [exAction, exAction, exAction] =
      [exAction, exAction, exAction].drop 1 :=
  C8_trim_bound 2 [exAction, exAction, exAction] (by decide)

/-- Claim C6: `recordAction` returns a PENDING entry (no afterState, no
undo directive) whose beforeState carries the head hash read before any
mutation, leaving the repository untouched; and when the reset mutation of
`undoCommit` fails, the recorded entry is in the journal but never gains
an afterState — and `getLastUndoableAction` can never return it. -/
theorem C6_failed_mutation_stays_pending (maxH : Nat) (id ts ty desc path : String)
    (cu : Bool) (mode : ResetMode) (k : Nat) (repo : Repo) (j : List RecordedAction)
    (c : CommitInfo) (rest : List CommitInfo)
    (hlog : repo.log = c :: rest)
    (hid : ∀ e ∈ j, e.id ≠ id)
    (hk : k ≤ repo.log.length)
    (hfail : resetHead repo k = none) :
    (∀ a sys1, recordAction maxH id ts ty desc path cu ⟨repo, j⟩ = some (a, sys1) →
      a.afterState = none ∧ a.undoCommand = none ∧
      a.beforeState.headHash = c.hash ∧ sys1.repo = repo ∧ a ∈ sys1.journal) ∧
    ((∃ e ∈ (undoCommit maxH path id ts mode k ⟨repo, j⟩).journal, e.id = id) ∧
      (∀ e ∈ (undoCommit maxH path id ts mode k ⟨repo, j⟩).journal, e.id = id →
        e.afterState = none ∧ e.undoCommand = none) ∧
      (∀ e, getLastUndoableAction path
          (undoCommit maxH path id ts mode k ⟨repo, j⟩).journal = some e →
        e.id ≠ id)) := by
  constructor
  · intro a sys1 h
    simp only [recordAction, hlog, Option.some.injEq, Prod.mk.injEq] at h
    obtain ⟨ha, hs⟩ := h
    subst ha
    subst hs
    refine ⟨rfl, rfl, rfl, rfl, ?_⟩
    obtain ⟨l2, hl2, _⟩ := jsSliceLast_concat maxH j
      ({ id := id, type := ty, timestamp := ts, description := desc, repoPath := path,
         beforeState := { headHash := c.hash, branch := repo.currentBranch },
         canUndo := cu } : RecordedAction)
    simp only [saveHistory, hl2]
    exact List.mem_append.mpr (Or.inr (List.mem_singleton.mpr rfl))
  · have h1 : (getRecentCommits repo 10).isEmpty = false := by
      simp [getRecentCommits, hlog]
    have h2 : (checkBeforeReset repo mode k).safe = true :=
      checkBeforeReset_safe_of_le repo mode k hk
    have hu : undoCommit maxH path id ts mode k ⟨repo, j⟩ =
        ⟨repo, saveHistory maxH (j ++
          [{ id := id, type := "undo_commit", timestamp := ts,
             description := undoDescription k mode,
             repoPath := path,
             beforeState := { headHash := c.hash, branch := repo.currentBranch },
             canUndo := true }])⟩ := by
      simp only [undoCommit, h1, h2, Bool.not_true, Bool.false_eq_true, if_false,
        recordAction, hlog, hfail]
    rw [hu]
    obtain ⟨l2, hl2, hl2sub⟩ := jsSliceLast_concat maxH j
      ({ id := id, type := "undo_commit", timestamp := ts,
         description := undoDescription k mode,
         repoPath := path,
         beforeState := { headHash := c.hash, branch := repo.currentBranch },
         canUndo := true } : RecordedAction)
    simp only [saveHistory, hl2]
    refine ⟨?_, ?_, ?_⟩
    · exact ⟨_, List.mem_append.mpr (Or.inr (List.mem_singleton.mpr rfl)), rfl⟩
    · intro e he heid
      rcases List.mem_append.mp he with h | h
      · exact absurd heid (hid e (hl2sub e h))
      · rw [List.mem_singleton.mp h]
        exact ⟨rfl, rfl⟩
    · intro e he heid
      obtain ⟨hp, hm⟩ := getLastUndoable_mem_pred path _ e he
      rcases List.mem_append.mp hm with h | h
      · exact hid e (hl2sub e h) heid
      · rw [List.mem_singleton.mp h] at hp
        simp [undoablePred, jsTruthyStr] at hp

/-- Claim C6 (witness): undoing the only commit of a one-commit repository
makes the `HEAD~1` reset fail, and the recorded entry is still present in
the journal, PENDING. -/
theorem C6_failed_mutation_stays_pending_witness :
    ∃ e ∈ (undoCommit 50 "/repo" "id1" "t0" ResetMode.soft 1
        ⟨oneCommitRepo, []⟩).journal, e.id = "id1" :=
  (C6_failed_mutation_stays_pending 50 "id1" "t0" "undo_commit" "d" "/repo" true
    ResetMode.soft 1 oneCommitRepo [] ⟨"c0", "init", "alice", "2024-01-01"⟩ []
    rfl (by simp) (by decide) rfl).2.1

/-- Claim C7: `getLastUndoableAction` only returns journal entries whose
undoable flag is set, whose undo directive is present, and whose recorded
repository path equals the caller's path; and after a successful
`undoLastAction` (which clears the consumed entry's flag), a subsequent
`getLastUndoableAction` never returns that entry's id again, provided the
journal ids are distinct (they are generated to be unique). -/
theorem C7_single_undo_slot (maxH : Nat) (path : String) (sys : Sys)
    (hnd : (sys.journal.map RecordedAction.id).Nodup) :
    (∀ a, getLastUndoableAction path sys.journal = some a →
      a.canUndo = true ∧ a.undoCommand.isSome = true ∧ a.repoPath = path ∧
      a ∈ sys.journal) ∧
    (∀ la, getLastUndoableAction path sys.journal = some la →
      (undoLastAction maxH path sys).1.1 = true →
      ∀ a2, getLastUndoableAction path (undoLastAction maxH path sys).2.journal = some a2 →
        a2.id ≠ la.id) := by
  constructor
  · intro a ha
    obtain ⟨hp, hm⟩ := getLastUndoable_mem_pred path sys.journal a ha
    unfold undoablePred at hp
    simp only [Bool.and_eq_true] at hp
    obtain ⟨⟨h1, h2⟩, h3⟩ := hp
    refine ⟨h1, ?_, by simpa using h3, hm⟩
    cases hoc : a.undoCommand with
    | none => rw [hoc] at h2; simp [jsTruthyStr] at h2
    | some s => rfl
  · intro la hla hsucc a2 ha2
    simp only [undoLastAction, hla] at hsucc ha2
    by_cases hbh : (la.beforeState.headHash == "") = true
    · simp [hbh] at hsucc
    · simp only [hbh, Bool.false_eq_true, if_false] at hsucc ha2
      cases hrt : hardResetTo la.beforeState.headHash sys.repo with
      | none => rw [hrt] at hsucc; simp at hsucc
      | some repo2 =>
        rw [hrt] at ha2
        have hm : la ∈ sys.journal := (getLastUndoable_mem_pred path _ la hla).2
        have hany := any_id_of_mem sys.journal la hm
        simp only [hany, if_true] at ha2
        obtain ⟨hp2, hm2⟩ := getLastUndoable_mem_pred path _ a2 ha2
        intro heq
        have hmc : a2 ∈ consumeById la.id sys.journal :=
          jsSliceLast_subset maxH _ a2 (by simpa [saveHistory] using hm2)
        have ha2eq := consumeById_mem_eq la sys.journal hm hnd a2 hmc heq
        rw [ha2eq] at hp2
        simp [undoablePred] at hp2

/-- Claim C7 (witness): on a concrete one-entry journal the returned entry
is undoable, has an undo directive and matches the caller's path. -/
theorem C7_single_undo_slot_witness :
    exUndoable.canUndo = true ∧ exUndoable.undoCommand.isSome = true ∧
    exUndoable.repoPath = "/repo" ∧ exUndoable ∈ (⟨oneCommitRepo, [exUndoable]⟩ : Sys).journal :=
  (C7_single_undo_slot 50 "/repo" ⟨oneCommitRepo, [exUndoable]⟩ (by decide)).1
    exUndoable (by decide)

/-- A guarded `filterMap` emits exactly one element per accepted input. -/
theorem length_filterMap_guard {α β : Type} (p : α → Bool) (g : α → β) (l : List α) :
    (l.filterMap (fun e => if p e then some (g e) else none)).length = l.countP p := by
  induction l with
  | nil => simp
  | cons a t IH =>
    by_cases h : p a <;> simp [List.filterMap_cons, h, IH, List.countP_cons]

/-- The deleted-branch scan never re-emits a name it has seen and never
emits an existing branch. -/
theorem deletedBranchesAux_spec (branchesAll : List String) :
    ∀ (reflog : List ReflogEntry) (seen : List String),
      ((getDeletedBranchesAux branchesAll reflog seen).map DeletedBranch.name).Nodup ∧
      ∀ b ∈ getDeletedBranchesAux branchesAll reflog seen,
        b.name ∉ seen ∧ b.name ∉ branchesAll := by
  intro reflog
  induction reflog with
  | nil => intro seen; simp [getDeletedBranchesAux]
  | cons e rest IH =>
    intro seen
    rcases hm : checkoutFromSearch e.message.data with _ | name
    · simpa [getDeletedBranchesAux, hm] using IH seen
    · by_cases hseen : name ∈ seen
      · simpa [getDeletedBranchesAux, hm, hseen] using IH seen
      · by_cases hball : name ∈ branchesAll
        · have h := IH (name :: seen)
          have hrw : getDeletedBranchesAux branchesAll (e :: rest) seen =
              getDeletedBranchesAux branchesAll rest (name :: seen) := by
            simp [getDeletedBranchesAux, hm, hseen, hball]
          rw [hrw]
          refine ⟨h.1, ?_⟩
          intro b hb
          obtain ⟨hb1, hb2⟩ := h.2 b hb
          exact ⟨fun hc => hb1 (List.mem_cons_of_mem _ hc), hb2⟩
        · have h := IH (name :: seen)
          have hrw : getDeletedBranchesAux branchesAll (e :: rest) seen =
              ⟨name, e.hash⟩ :: getDeletedBranchesAux branchesAll rest (name :: seen) := by
            simp [getDeletedBranchesAux, hm, hseen, hball]
          rw [hrw]
          constructor
          · rw [List.map_cons, List.nodup_cons]
            refine ⟨?_, h.1⟩
            intro hc
            obtain ⟨b, hb, hbn⟩ := List.mem_map.mp hc
            apply (h.2 b hb).1
            rw [hbn]
            exact List.mem_cons_self name seen
          · intro b hb
            rcases List.mem_cons.mp hb with hcase | hcase
            · exact ⟨by simpa [hcase] using hseen, by simpa [hcase] using hball⟩
            · obtain ⟨hb1, hb2⟩ := h.2 b hcase
              exact ⟨fun hc => hb1 (List.mem_cons_of_mem _ hc), hb2⟩

/-- Claim C9 (counterexample): two reflog entries recording stash drops
with the same description each produce a result — `getDroppedStashes`
does not deduplicate by description as the claim states. -/
theorem C9_counterexample :
    (getDroppedStashes [⟨"aaa111", "stash", "stash: dropped stuff"⟩,
        ⟨"bbb222", "stash", "stash: dropped stuff"⟩]).map DroppedStash.message =
      ["dropped stuff", "dropped stuff"] ∧
    ¬((getDroppedStashes [⟨"aaa111", "stash", "stash: dropped stuff"⟩,
        ⟨"bbb222", "stash", "stash: dropped stuff"⟩]).map DroppedStash.message).Nodup := by
  constructor
  · decide
  · decide

/-- Each entry the deleted-branch scan emits carries the name and hash of
the newest scanned reflog occurrence of that name: the scanned list splits
as `pre ++ e :: post` where `e` matches the entry and nothing in the newer
prefix `pre` matches the same name (every matched name enters the seen set
immediately, so later occurrences can never be emitted). -/
theorem deletedBranchesAux_newest (branchesAll : List String) :
    ∀ (reflog : List ReflogEntry) (seen : List String),
      ∀ b ∈ getDeletedBranchesAux branchesAll reflog seen,
        ∃ pre e post, reflog = pre ++ e :: post ∧
          checkoutFromSearch e.message.data = some b.name ∧ e.hash = b.hash ∧
          ∀ e2 ∈ pre, checkoutFromSearch e2.message.data ≠ some b.name := by
  intro reflog
  induction reflog with
  | nil =>
    intro seen b hb
    simp [getDeletedBranchesAux] at hb
  | cons e rest IH =>
    intro seen b hb
    rcases hm : checkoutFromSearch e.message.data with _ | name
    · rw [show getDeletedBranchesAux branchesAll (e :: rest) seen =
          getDeletedBranchesAux branchesAll rest seen from by
        simp [getDeletedBranchesAux, hm]] at hb
      obtain ⟨pre, e1, post, hdec, hm1, hh1, hpre⟩ := IH seen b hb
      refine ⟨e :: pre, e1, post, by rw [hdec, List.cons_append], hm1, hh1, ?_⟩
      intro e2 he2
      rcases List.mem_cons.mp he2 with h | h
      · rw [h, hm]
        simp
      · exact hpre e2 h
    · by_cases hseen : name ∈ seen
      · rw [show getDeletedBranchesAux branchesAll (e :: rest) seen =
            getDeletedBranchesAux branchesAll rest seen from by
          simp [getDeletedBranchesAux, hm, hseen]] at hb
        have hbseen : b.name ∉ seen :=
          ((deletedBranchesAux_spec branchesAll rest seen).2 b hb).1
        obtain ⟨pre, e1, post, hdec, hm1, hh1, hpre⟩ := IH seen b hb
        refine ⟨e :: pre, e1, post, by rw [hdec, List.cons_append], hm1, hh1, ?_⟩
        intro e2 he2
        rcases List.mem_cons.mp he2 with h | h
        · rw [h, hm]
          intro hcon
          rw [Option.some.injEq] at hcon
          apply hbseen
          rw [← hcon]
          exact hseen
        · exact hpre e2 h
      · by_cases hball : name ∈ branchesAll
        · rw [show getDeletedBranchesAux branchesAll (e :: rest) seen =
              getDeletedBranchesAux branchesAll rest (name :: seen) from by
            simp [getDeletedBranchesAux, hm, hseen, hball]] at hb
          have hbseen : b.name ∉ name :: seen :=
            ((deletedBranchesAux_spec branchesAll rest (name :: seen)).2 b hb).1
          obtain ⟨pre, e1, post, hdec, hm1, hh1, hpre⟩ := IH (name :: seen) b hb
          refine ⟨e :: pre, e1, post, by rw [hdec, List.cons_append], hm1, hh1, ?_⟩
          intro e2 he2
          rcases List.mem_cons.mp he2 with h | h
          · rw [h, hm]
            intro hcon
            rw [Option.some.injEq] at hcon
            apply hbseen
            rw [← hcon]
            exact List.mem_cons_self name seen
          · exact hpre e2 h
        · rw [show getDeletedBranchesAux branchesAll (e :: rest) seen =
              ⟨name, e.hash⟩ :: getDeletedBranchesAux branchesAll rest (name :: seen) from by
            simp [getDeletedBranchesAux, hm, hseen, hball]] at hb
          rcases List.mem_cons.mp hb with hcase | hcase
          · refine ⟨[], e, rest, rfl, ?_, ?_, ?_⟩
            · rw [hcase]
              exact hm
            · rw [hcase]
            · intro e2 he2
              cases he2
          · have hbseen : b.name ∉ name :: seen :=
              ((deletedBranchesAux_spec branchesAll rest (name :: seen)).2 b hcase).1
            obtain ⟨pre, e1, post, hdec, hm1, hh1, hpre⟩ := IH (name :: seen) b hcase
            refine ⟨e :: pre, e1, post, by rw [hdec, List.cons_append], hm1, hh1, ?_⟩
            intro e2 he2
            rcases List.mem_cons.mp he2 with h | h
            · rw [h, hm]
              intro hcon
              rw [Option.some.injEq] at hcon
              apply hbseen
              rw [← hcon]
              exact List.mem_cons_self name seen
            · exact hpre e2 h

/-- Claim C9 (amended): both recovery queries scan the reflog newest-first
over at most 100 entries; the deleted-branches query deduplicates by first
occurrence of a branch name — each returned entry carries the name and
hash of the most recent matching reflog entry, with no newer occurrence of
that name — and skips names that still exist, but the dropped-stashes
query emits one result per matching reflog entry, without deduplication by
description. -/
theorem C9_reflog_recovery_queries (reflog : List ReflogEntry)
    (branchesAll : List String) :
    ((getDeletedBranches reflog branchesAll).map DeletedBranch.name).Nodup ∧
    ((getDeletedBranches reflog branchesAll).all
      (fun b => !(branchesAll.contains b.name))) = true ∧
    (∀ b ∈ getDeletedBranches reflog branchesAll,
      ∃ pre e post, reflog.take 100 = pre ++ e :: post ∧
        checkoutFromSearch e.message.data = some b.name ∧ e.hash = b.hash ∧
        ∀ e2 ∈ pre, checkoutFromSearch e2.message.data ≠ some b.name) ∧
    (getDroppedStashes reflog).length = (reflog.take 100).countP stashDropPred := by
  obtain ⟨h1, h2⟩ := deletedBranchesAux_spec branchesAll (reflog.take 100) []
  refine ⟨h1, ?_, ?_, ?_⟩
  · rw [List.all_eq_true]
    intro b hb
    have := (h2 b hb).2
    simp [this]
  · intro b hb
    exact deletedBranchesAux_newest branchesAll (reflog.take 100) [] b hb
  · exact length_filterMap_guard stashDropPred
      (fun e => (⟨e.hash, stashDescription e.message⟩ : DroppedStash)) (reflog.take 100)

/-- Claim C9 (witness): on a reflog holding two occurrences of the deleted
branch `gone`, the single returned entry splits the scanned list with the
newest occurrence (hash `h1`) as the match and no matching entry before
it. -/
theorem C9_reflog_recovery_queries_witness :
    ∃ pre e post,
      ([(⟨"h1", "checkout", "checkout: moving from gone to main"⟩ : ReflogEntry),
        ⟨"h2", "checkout", "checkout: moving from gone to dev"⟩].take 100) =
        pre ++ e :: post ∧
      checkoutFromSearch e.message.data =
        some (⟨"gone", "h1"⟩ : DeletedBranch).name ∧
      e.hash = (⟨"gone", "h1"⟩ : DeletedBranch).hash ∧
      ∀ e2 ∈ pre, checkoutFromSearch e2.message.data ≠
        some (⟨"gone", "h1"⟩ : DeletedBranch).name :=
  (C9_reflog_recovery_queries
      [⟨"h1", "checkout", "checkout: moving from gone to main"⟩,
       ⟨"h2", "checkout", "checkout: moving from gone to dev"⟩]
      ["main", "dev"]).2.2.1
    ⟨"gone", "h1"⟩ (by decide)

/-- Evaluated form of `recordAction` on a non-empty repository. -/
theorem recordAction_eq (maxH : Nat) (id ts ty desc path : String) (cu : Bool)
    (repo : Repo) (j : List RecordedAction) (c0 : CommitInfo) (rest0 : List CommitInfo)
    (hlog : repo.log = c0 :: rest0) :
    recordAction maxH id ts ty desc path cu ⟨repo, j⟩ =
      some ({ id := id, type := ty, timestamp := ts, description := desc,
              repoPath := path,
              beforeState := { headHash := c0.hash, branch := repo.currentBranch },
              canUndo := cu },
            ⟨repo, saveHistory maxH (j ++
              [{ id := id, type := ty, timestamp := ts, description := desc,
                 repoPath := path,
                 beforeState := { headHash := c0.hash, branch := repo.currentBranch },
                 canUndo := cu }])⟩) := by
  simp [recordAction, hlog]

/-- Evaluated form of `completeAction` on a non-empty repository. -/
theorem completeAction_eq (maxH : Nat) (a : RecordedAction) (repo : Repo)
    (j : List RecordedAction) (c : CommitInfo) (rest : List CommitInfo)
    (hlog : repo.log = c :: rest) :
    completeAction maxH a ⟨repo, j⟩ =
      some ⟨repo,
        if j.any (fun b => b.id == a.id) then
          saveHistory maxH (replaceById
            { a with
              afterState := some { headHash := c.hash, branch := repo.currentBranch },
              undoCommand :=
                if a.canUndo && !(a.beforeState.headHash == c.hash) then
                  some ("git reset --hard " ++ a.beforeState.headHash)
                else a.undoCommand } j)
        else j⟩ := by
  simp [completeAction, hlog]

/-- Claim C1 (amended): for a well-formed repository with N ≥ 1 commits
and 1 ≤ k ≤ N, running the undo-commit command and then immediately the
journal undo restores the head hash to its pre-operation value, provided
k < N or the journal holds no earlier undoable entry for this repository.
When k = N the `HEAD~k` reset fails (HEAD~N does not exist), the journal
entry stays PENDING, and `undoLastAction` would instead execute the most
recent earlier undoable entry, if one exists. -/
theorem C1_undo_then_journal_undo (maxH : Nat) (path id ts : String) (mode : ResetMode)
    (k : Nat) (repo : Repo) (j : List RecordedAction)
    (c0 : CommitInfo) (rest0 : List CommitInfo)
    (hlog : repo.log = c0 :: rest0)
    (hstore : StoreOk repo)
    (hnd : (repo.log.map CommitInfo.hash).Nodup)
    (hne : ∀ c ∈ repo.log, c.hash ≠ "")
    (hk1 : 1 ≤ k) (hkN : k ≤ repo.log.length)
    (hid : ∀ e ∈ j, e.id ≠ id)
    (hside : k < repo.log.length ∨ ∀ e ∈ j, undoablePred path e = false) :
    headHash (undoThenJournalUndo maxH path id ts mode k ⟨repo, j⟩).repo =
      headHash repo := by
  have h1 : (getRecentCommits repo 10).isEmpty = false := by
    simp [getRecentCommits, hlog]
  have h2 : (checkBeforeReset repo mode k).safe = true :=
    checkBeforeReset_safe_of_le repo mode k hkN
  obtain ⟨l2, hl2, hl2sub⟩ := jsSliceLast_concat maxH j
    (⟨id, "undo_commit", ts, undoDescription k mode, path,
      ⟨c0.hash, repo.currentBranch⟩, none, none, true⟩ : RecordedAction)
  have hsave1 : saveHistory maxH (j ++
      [⟨id, "undo_commit", ts, undoDescription k mode, path,
        ⟨c0.hash, repo.currentBranch⟩, none, none, true⟩]) =
      l2 ++ [⟨id, "undo_commit", ts, undoDescription k mode, path,
        ⟨c0.hash, repo.currentBranch⟩, none, none, true⟩] := hl2
  have hc0mem : c0 ∈ repo.log := by
    rw [hlog]; exact List.mem_cons_self c0 rest0
  have hc0ne : (c0.hash == "") = false := by
    simp [hne c0 hc0mem]
  by_cases hklt : k < repo.log.length
  · obtain ⟨ck, restk, hdk⟩ : ∃ ck restk, repo.log.drop k = ck :: restk := by
      cases hd : repo.log.drop k with
      | nil =>
        exfalso
        have hlendrop := List.length_drop k repo.log
        rw [hd] at hlendrop
        simp only [List.length_nil] at hlendrop
        omega
      | cons a b => exact ⟨a, b, rfl⟩
    have hckmem : ck ∈ rest0 := by
      have hmm : ck ∈ repo.log.drop k := by
        rw [hdk]; exact List.mem_cons_self ck restk
      have heq : repo.log.drop k = rest0.drop (k - 1) := by
        conv_lhs => rw [hlog, show k = (k - 1) + 1 from by omega]
        exact List.drop_succ_cons
      rw [heq] at hmm
      exact List.drop_subset _ _ hmm
    have hhashne : (c0.hash == ck.hash) = false := by
      rw [hlog, List.map_cons, List.nodup_cons] at hnd
      have hne2 : c0.hash ≠ ck.hash := by
        intro hcon
        exact hnd.1 (by rw [hcon]; exact List.mem_map.mpr ⟨ck, hckmem, rfl⟩)
      simp [hne2]
    have hreset : resetHead repo k = some { repo with log := ck :: restk } := by
      have hlook : repo.store.lookup ck.hash = some (ck :: restk) := hstore k ck restk hdk
      simp only [resetHead, hdk, hardResetTo, hlook, Option.map_some']
    have hany : ((l2 ++ [(⟨id, "undo_commit", ts, undoDescription k mode, path,
        ⟨c0.hash, repo.currentBranch⟩, none, none, true⟩ : RecordedAction)]).any
          (fun b => b.id == id)) = true := by
      simp
    have hrepl : replaceById
        (⟨id, "undo_commit", ts, undoDescription k mode, path,
          ⟨c0.hash, repo.currentBranch⟩, some ⟨ck.hash, repo.currentBranch⟩,
          some ("git reset --hard " ++ c0.hash), true⟩ : RecordedAction)
        (l2 ++ [⟨id, "undo_commit", ts, undoDescription k mode, path,
          ⟨c0.hash, repo.currentBranch⟩, none, none, true⟩]) =
        l2 ++ [⟨id, "undo_commit", ts, undoDescription k mode, path,
          ⟨c0.hash, repo.currentBranch⟩, some ⟨ck.hash, repo.currentBranch⟩,
          some ("git reset --hard " ++ c0.hash), true⟩] :=
      replaceById_concat _ _ l2 (fun x hx => hid x (hl2sub x hx)) rfl
    obtain ⟨l3, hl3, _⟩ := jsSliceLast_concat maxH l2
      (⟨id, "undo_commit", ts, undoDescription k mode, path,
        ⟨c0.hash, repo.currentBranch⟩, some ⟨ck.hash, repo.currentBranch⟩,
        some ("git reset --hard " ++ c0.hash), true⟩ : RecordedAction)
    have hsave2 : saveHistory maxH (l2 ++
        [⟨id, "undo_commit", ts, undoDescription k mode, path,
          ⟨c0.hash, repo.currentBranch⟩, some ⟨ck.hash, repo.currentBranch⟩,
          some ("git reset --hard " ++ c0.hash), true⟩]) =
        l3 ++ [⟨id, "undo_commit", ts, undoDescription k mode, path,
          ⟨c0.hash, repo.currentBranch⟩, some ⟨ck.hash, repo.currentBranch⟩,
          some ("git reset --hard " ++ c0.hash), true⟩] := hl3
    have hu : undoCommit maxH path id ts mode k ⟨repo, j⟩ =
        ⟨{ repo with log := ck :: restk },
          l3 ++ [⟨id, "undo_commit", ts, undoDescription k mode, path,
            ⟨c0.hash, repo.currentBranch⟩, some ⟨ck.hash, repo.currentBranch⟩,
            some ("git reset --hard " ++ c0.hash), true⟩]⟩ := by
      simp only [undoCommit, h1, Bool.false_eq_true, if_false, h2, Bool.not_true,
        recordAction_eq maxH id ts "undo_commit" (undoDescription k mode) path true
          repo j c0 rest0 hlog, hsave1, hreset,
        completeAction_eq maxH _ { repo with log := ck :: restk } _ ck restk rfl]
      simp only [hany, if_true, hhashne, Bool.not_false, Bool.and_true, Bool.and_self,
        if_pos, hrepl, hsave2]
    have hs_ne : ("git reset --hard " ++ c0.hash) ≠ "" := by
      intro hcon
      have hlen := congrArg String.length hcon
      rw [String.length_append] at hlen
      have h17 : ("git reset --hard " : String).length = 17 := rfl
      have h0 : ("" : String).length = 0 := rfl
      rw [h17, h0] at hlen
      omega
    have hpred : undoablePred path
        (⟨id, "undo_commit", ts, undoDescription k mode, path,
          ⟨c0.hash, repo.currentBranch⟩, some ⟨ck.hash, repo.currentBranch⟩,
          some ("git reset --hard " ++ c0.hash), true⟩ : RecordedAction) = true := by
      simp [undoablePred, jsTruthyStr, hs_ne]
    have hglua := getLastUndoable_concat_hit path l3 _ hpred
    have hreset2 : hardResetTo c0.hash { repo with log := ck :: restk } =
        some { repo with log := c0 :: rest0 } := by
      have hlook0 : repo.store.lookup c0.hash = some (c0 :: rest0) := by
        apply hstore 0 c0 rest0
        rw [List.drop_zero]
        exact hlog
      simp only [hardResetTo]
      rw [show ({ repo with log := ck :: restk } : Repo).store = repo.store from rfl, hlook0]
      rfl
    rw [undoThenJournalUndo, hu]
    simp only [undoLastAction, hglua, hc0ne, Bool.false_eq_true, if_false, hreset2]
    simp [headHash, hlog]
  · have hdropnil : repo.log.drop k = [] := by
      apply List.drop_eq_nil_of_le
      omega
    have hfail : resetHead repo k = none := by
      simp [resetHead, hdropnil]
    have hnoprior : ∀ e ∈ j, undoablePred path e = false := by
      rcases hside with h | h
      · exact absurd h hklt
      · exact h
    have hu : undoCommit maxH path id ts mode k ⟨repo, j⟩ =
        ⟨repo, l2 ++ [⟨id, "undo_commit", ts, undoDescription k mode, path,
          ⟨c0.hash, repo.currentBranch⟩, none, none, true⟩]⟩ := by
      simp only [undoCommit, h1, Bool.false_eq_true, if_false, h2, Bool.not_true,
        recordAction_eq maxH id ts "undo_commit" (undoDescription k mode) path true
          repo j c0 rest0 hlog, hsave1, hfail]
    have hnone : getLastUndoableAction path
        (l2 ++ [⟨id, "undo_commit", ts, undoDescription k mode, path,
          ⟨c0.hash, repo.currentBranch⟩, none, none, true⟩]) = none := by
      apply getLastUndoable_none
      intro x hx
      rcases List.mem_append.mp hx with h | h
      · exact hnoprior x (hl2sub x h)
      · rw [List.mem_singleton.mp h]
        simp [undoablePred, jsTruthyStr]
    rw [undoThenJournalUndo, hu]
    simp only [undoLastAction, hnone]

/-- Claim C1 (counterexample): with N = 1 commit and k = 1 ≤ N, the
`HEAD~1` reset fails, the fresh journal entry stays PENDING, and the
journal undo instead executes the earlier undoable entry: the head ends at
`old`, not at the pre-operation value `c0`. -/
theorem C1_counterexample :
    headHash (undoThenJournalUndo 50 "/repo" "1700000000002-fresh77" "t2" ResetMode.soft 1
        ⟨cexRepo, [priorAction]⟩).repo = some "old" ∧
    headHash cexRepo = some "c0" ∧
    headHash (undoThenJournalUndo 50 "/repo" "1700000000002-fresh77" "t2" ResetMode.soft 1
        ⟨cexRepo, [priorAction]⟩).repo ≠ headHash cexRepo := by
  refine ⟨?_, ?_, ?_⟩ <;> decide

/-- The two-commit repository has a coherent object store. -/
theorem twoCommitRepo_storeOk : StoreOk twoCommitRepo := by
  intro k c rest h
  rcases k with _ | k1
  · simp only [twoCommitRepo, List.drop_zero] at h
    rw [List.cons_eq_cons] at h
    obtain ⟨h1, h2⟩ := h
    subst h1
    subst h2
    decide
  · rcases k1 with _ | k2
    · simp only [twoCommitRepo, List.drop_succ_cons, List.drop_zero] at h
      rw [List.cons_eq_cons] at h
      obtain ⟨h1, h2⟩ := h
      subst h1
      subst h2
      decide
    · simp [twoCommitRepo, List.drop_succ_cons] at h

/-- Claim C1 (witness): soft-undoing one of two commits and then running
the journal undo restores the head hash. -/
theorem C1_undo_then_journal_undo_witness :
    headHash (undoThenJournalUndo 50 "/repo" "1700000000003-fresh88" "t3" ResetMode.soft 1
        ⟨twoCommitRepo, []⟩).repo = headHash twoCommitRepo :=
  C1_undo_then_journal_undo 50 "/repo" "1700000000003-fresh88" "t3" ResetMode.soft 1
    twoCommitRepo [] ⟨"c1", "second", "alice", "d2"⟩ [⟨"c0", "first", "alice", "d1"⟩]
    rfl twoCommitRepo_storeOk (by decide) (by decide) (by decide) (by decide)
    (by simp) (Or.inl (by decide))
